import Mathlib

/-!
Verification of the keyboard adjacency-graph builder
(`data-scripts/build_keyboard_adjacency_graphs.py`).

The script parses ASCII diagrams of keyboard layouts into a coordinate
table and builds, per character, a clockwise-ordered adjacency list of
neighboring tokens (with `none` marking a missing neighbor).  The Lean
definitions below are a shallow embedding of that Python code: Python
strings become `List Char`, dictionaries become association lists with
insertion-order semantics (`dinsert` / `dget`), `str.split()` /
`str.split('\n')` / `str.index` become `splitWs` / `splitNl` /
`index_of`, integer `divmod` becomes `Int.ediv` / `Int.emod` (identical
to Python's floor semantics for the positive divisors used here), and
the script's `assert` failures become `Except.error` results.
-/

/-- Tokens are Python strings: lists of characters. -/
abbrev Token := List Char

/-- The position table maps integer coordinates to the token there,
as an insertion-ordered association list (a Python dict). -/
abbrev Table := List ((Int × Int) × Token)

/-- The adjacency graph maps characters to clockwise neighbor lists,
as an insertion-ordered association list (a Python dict). -/
abbrev Graph := List (Char × List (Option Token))

/-- Whitespace test matching Python `str.isspace` on the ASCII range,
which is what `str.split()` splits on. -/
def pyIsSpace (c : Char) : Bool :=
  c = ' ' || c = '\t' || c = '\n' || c = '\r' || c = '\x0b' || c = '\x0c'

/-- Worker for `splitWs`; `acc` holds the current token, reversed. -/
def splitWsAux : List Char → List Char → List Token
  | [], acc => if acc = [] then [] else [acc.reverse]
  | c :: cs, acc =>
    if pyIsSpace c then
      if acc = [] then splitWsAux cs [] else acc.reverse :: splitWsAux cs []
    else splitWsAux cs (c :: acc)

/-- Python `s.split()`: tokens separated by runs of whitespace, with no
empty tokens. -/
def splitWs (s : List Char) : List Token := splitWsAux s []

/-- Worker for `splitNl`; `acc` holds the current line, reversed. -/
def splitNlAux : List Char → List Char → List (List Char)
  | [], acc => [acc.reverse]
  | c :: cs, acc =>
    if c = '\n' then acc.reverse :: splitNlAux cs []
    else splitNlAux cs (c :: acc)

/-- Python `s.split('\n')`: split at every newline, keeping empties. -/
def splitNl (s : List Char) : List (List Char) := splitNlAux s []

/-- Worker for `index_of`: scan suffixes, tracking the current index. -/
def index_go (tok : List Char) : List Char → Nat → Option Nat
  | [], i => if tok = [] then some i else none
  | c :: cs, i =>
    if (c :: cs).take tok.length = tok then some i
    else index_go tok cs (i + 1)

/-- Python `line.index(tok)`: index of the first occurrence of `tok` as
a substring of `line`, or `none` (a `ValueError` in Python). -/
def index_of (line tok : List Char) : Option Nat := index_go tok line 0

/-- Python dict assignment `d[k] = v`: replace the binding in place if
the key is present, else append it (insertion-order semantics). -/
def dinsert {κ α : Type} [DecidableEq κ] (k : κ) (v : α) :
    List (κ × α) → List (κ × α)
  | [] => [(k, v)]
  | e :: rest => if e.1 = k then (k, v) :: rest else e :: dinsert k v rest

/-- Python `d.get(k, None)`: look a key up in an association list. -/
def dget {κ α : Type} [DecidableEq κ] (d : List (κ × α)) (k : κ) : Option α :=
  match d with
  | [] => none
  | e :: rest => if e.1 = k then some e.2 else dget rest k

/-- The six clockwise neighbor coordinates on a slanted (staggered
keyboard) grid, starting with the key to the left. -/
def get_slanted_adjacent_coords (x y : Int) : List (Int × Int) :=
  [(x - 1, y), (x, y - 1), (x + 1, y - 1), (x + 1, y), (x, y + 1), (x - 1, y + 1)]

/-- The eight clockwise neighbor coordinates on a vertically aligned
(keypad) grid, starting with the key to the left. -/
def get_aligned_adjacent_coords (x y : Int) : List (Int × Int) :=
  [(x - 1, y), (x - 1, y - 1), (x, y - 1), (x + 1, y - 1), (x + 1, y),
   (x + 1, y + 1), (x, y + 1), (x - 1, y + 1)]

/-- The `adjacency_func` selection in `build_graph`. -/
def adjacency_coords (slanted : Bool) (p : Int × Int) : List (Int × Int) :=
  if slanted then get_slanted_adjacent_coords p.1 p.2
  else get_aligned_adjacent_coords p.1 p.2

/-- The per-row slant correction: `y - 1` for slanted layouts, else 0. -/
def slant_of (slanted : Bool) (y : Nat) : Int :=
  if slanted then (y : Int) - 1 else 0

/-- One row of the parsing loop in `build_graph`: place each token of
the line at coordinates derived from its first occurrence index,
failing (Python `assert`) when the offset is not a multiple of
`x_unit`. -/
def parse_line (src : List Char) (slanted : Bool) (x_unit : Int) (y : Nat)
    (line : List Char) : List Token → Table → Except String Table
  | [], pt => .ok pt
  | tok :: toks, pt =>
    match index_of line tok with
    | none => .error "ValueError: substring not found"
    | some col =>
      if Int.emod ((col : Int) - slant_of slanted y) x_unit = 0 then
        parse_line src slanted x_unit y line toks
          (dinsert (Int.ediv ((col : Int) - slant_of slanted y) x_unit,
            (y : Int)) tok pt)
      else
        .error ("unexpected x offset for " ++ String.mk tok ++ " in:\n" ++
          String.mk src)

/-- The outer parsing loop of `build_graph`, over the diagram's lines
(`enumerate(layout_str.split('\n'))`). -/
def parse_lines (src : List Char) (slanted : Bool) (x_unit : Int) :
    Nat → List (List Char) → Table → Except String Table
  | _, [], pt => .ok pt
  | y, line :: rest, pt =>
    match parse_line src slanted x_unit y line (splitWs line) pt with
    | .error e => .error e
    | .ok pt2 => parse_lines src slanted x_unit (y + 1) rest pt2

/-- The parsing phase of `build_graph`: token-width check (the first
`assert`), `x_unit` computation, then the line loop.  An empty diagram
reproduces Python's `IndexError` on `tokens[0]`. -/
def parse_table (layout_str : List Char) (slanted : Bool) :
    Except String Table :=
  match splitWs layout_str with
  | [] => .error "IndexError: list index out of range"
  | t0 :: rest =>
    if (t0 :: rest).all (fun t => t.length == t0.length) then
      parse_lines layout_str slanted ((t0.length : Int) + 1) 0
        (splitNl layout_str) []
    else .error ("token len mismatch:\n " ++ String.mk layout_str)

/-- Inner loop of the adjacency phase: for each character of a token,
bind it to the token lookups at its coordinate's neighbors. -/
def insert_chars (pt : Table) (slanted : Bool) (p : Int × Int) :
    List Char → Graph → Graph
  | [], g => g
  | c :: cs, g =>
    insert_chars pt slanted p cs
      (dinsert c ((adjacency_coords slanted p).map (fun q => dget pt q)) g)

/-- Outer loop of the adjacency phase, over the position table's
entries in insertion order. -/
def build_adjacency_aux (pt : Table) (slanted : Bool) :
    Table → Graph → Graph
  | [], g => g
  | e :: rest, g =>
    build_adjacency_aux pt slanted rest (insert_chars pt slanted e.1 e.2 g)

/-- The adjacency phase of `build_graph`: from a coordinate table,
build the character adjacency graph. -/
def build_adjacency (pt : Table) (slanted : Bool) : Graph :=
  build_adjacency_aux pt slanted pt []

/-- Python `build_graph(layout_str, slanted)`: parse the diagram, then
build the adjacency graph; any failed `assert` aborts with no graph. -/
def build_graph (layout_str : List Char) (slanted : Bool) :
    Except String Graph :=
  match parse_table layout_str slanted with
  | .error e => .error e
  | .ok pt => .ok (build_adjacency pt slanted)

/-- The qwerty layout diagram (the apostrophe-quote token is assembled
from character codes 39 and 34). -/
def qwerty : List Char :=
  String.toList
    ("\n`~ 1! 2@ 3# 4$ 5% 6^ 7& 8* 9( 0) -_ =+\n    qQ wW eE rR tT yY uU iI oO pP [{ ]} \\|\n     aA sS dD fF gG hH jJ kK lL ;: "
      ++ String.mk [Char.ofNat 39, Char.ofNat 34]
      ++ "\n      zZ xX cC vV bB nN mM ,< .> /?\n")

/-- The dvorak layout diagram. -/
def dvorak : List Char :=
  String.toList
    ("\n`~ 1! 2@ 3# 4$ 5% 6^ 7& 8* 9( 0) [{ ]}\n    "
      ++ String.mk [Char.ofNat 39, Char.ofNat 34]
      ++ " ,< .> pP yY fF gG cC rR lL /? =+ \\|\n     aA oO eE uU iI dD hH tT nN sS -_\n      ;: qQ jJ kK xX bB mM wW vV zZ\n")

/-- The keypad layout diagram. -/
def keypad : List Char :=
  String.toList "\n  / * -\n7 8 9 +\n4 5 6\n1 2 3\n  0 .\n"

/-- The mac keypad layout diagram. -/
def mac_keypad : List Char :=
  String.toList "\n  = / *\n7 8 9 -\n4 5 6 +\n1 2 3\n  0 .\n"

/-- The graph the script builds for the qwerty layout. -/
def qwerty_graph : Graph := (build_graph qwerty true).toOption.getD []

/-- The graph the script builds for the dvorak layout. -/
def dvorak_graph : Graph := (build_graph dvorak true).toOption.getD []

/-- The graph the script builds for the keypad layout. -/
def keypad_graph : Graph := (build_graph keypad false).toOption.getD []

/-- The graph the script builds for the mac keypad layout. -/
def mac_keypad_graph : Graph :=
  (build_graph mac_keypad false).toOption.getD []

/-- Count of non-marker neighbor entries over the whole graph (the
accumulation loop of `calc_average_degree` in the emitted C++). -/
def total_degree (g : Graph) : Nat :=
  (g.map (fun e => (e.2.filter (fun o => o.isSome)).length)).sum

/-- Average degree: total non-marker entries divided by graph size
(`calc_average_degree` in the emitted C++). -/
def average_degree (g : Graph) : ℚ :=
  (total_degree g : ℚ) / (g.length : ℚ)

/-- Starting-position count: the graph's size (`KEYBOARD_STARTING_POSITIONS`
is `graphs.at(QWERTY).size()` in the emitted C++). -/
def starting_positions (g : Graph) : Nat := g.length

/-- Whether an `Except` result is a success. -/
def except_is_ok {ε α : Type} : Except ε α → Bool
  | .ok _ => true
  | .error _ => false

/-- The table entries whose token contains the character `c`. -/
def char_entries (pt : Table) (c : Char) : Table :=
  pt.filter (fun e => decide (c ∈ e.2))

/-- Coordinate of the table entry that determines `c`'s adjacency list:
the last entry whose token contains `c` (later dict writes win). -/
def last_tok_pos : Table → Char → Option (Int × Int)
  | [], _ => none
  | e :: rest, c =>
    match last_tok_pos rest c with
    | some p => some p
    | none => if c ∈ e.2 then some e.1 else none

/-! ### Dictionary lemmas -/

theorem dget_dinsert {κ α : Type} [DecidableEq κ] (k k' : κ) (v : α)
    (d : List (κ × α)) :
    dget (dinsert k v d) k' = if k' = k then some v else dget d k' := by
  induction d with
  | nil =>
    simp only [dinsert, dget]
    by_cases h : k = k'
    · subst h; simp
    · rw [if_neg h, if_neg (fun hh => h hh.symm)]
  | cons e rest ih =>
    simp only [dinsert]
    by_cases he : e.1 = k
    · rw [if_pos he]
      by_cases h : k' = k
      · subst h; simp [dget]
      · have h1 : ¬(k = k') := fun hh => h hh.symm
        have h2 : ¬(e.1 = k') := by rw [he]; exact h1
        simp [dget, h, h1, h2]
    · rw [if_neg he]
      by_cases h2 : e.1 = k'
      · have hk : ¬(k' = k) := fun hh => he (h2.trans hh)
        simp [dget, h2, hk]
      · simp [dget, h2, ih]

theorem mem_dinsert {κ α : Type} [DecidableEq κ] {k : κ} {v : α}
    {d : List (κ × α)} {e : κ × α} (h : e ∈ dinsert k v d) :
    e = (k, v) ∨ e ∈ d := by
  induction d with
  | nil => simpa [dinsert] using h
  | cons e0 rest ih =>
    simp only [dinsert] at h
    split at h
    · rcases List.mem_cons.mp h with h1 | h1
      · exact Or.inl h1
      · exact Or.inr (List.mem_cons_of_mem _ h1)
    · rcases List.mem_cons.mp h with h1 | h1
      · exact Or.inr (h1 ▸ List.mem_cons_self _ _)
      · rcases ih h1 with h2 | h2
        · exact Or.inl h2
        · exact Or.inr (List.mem_cons_of_mem _ h2)

theorem mem_dinsert_self {κ α : Type} [DecidableEq κ] (k : κ) (v : α)
    (d : List (κ × α)) : (k, v) ∈ dinsert k v d := by
  induction d with
  | nil => simp [dinsert]
  | cons e0 rest ih =>
    simp only [dinsert]
    split
    · exact List.mem_cons_self _ _
    · exact List.mem_cons_of_mem _ ih

theorem mem_dinsert_of_ne {κ α : Type} [DecidableEq κ] {k : κ} {v : α}
    {d : List (κ × α)} {e : κ × α} (hm : e ∈ d) (hne : e.1 ≠ k) :
    e ∈ dinsert k v d := by
  induction d with
  | nil => cases hm
  | cons e0 rest ih =>
    simp only [dinsert]
    rcases List.mem_cons.mp hm with h1 | h1
    · split
      · next he => exact absurd (by rw [h1]; exact he) hne
      · rw [h1]; exact List.mem_cons_self _ _
    · split
      · exact List.mem_cons_of_mem _ h1
      · exact List.mem_cons_of_mem _ (ih h1)

theorem mem_keys_dinsert {κ α : Type} [DecidableEq κ] {k a : κ} {v : α}
    {d : List (κ × α)} (h : a ∈ (dinsert k v d).map Prod.fst) :
    a = k ∨ a ∈ d.map Prod.fst := by
  rcases List.mem_map.mp h with ⟨e, he, rfl⟩
  rcases mem_dinsert he with h1 | h1
  · left; rw [h1]
  · right; exact List.mem_map_of_mem _ h1

theorem keys_nodup_dinsert {κ α : Type} [DecidableEq κ] (k : κ) (v : α)
    {d : List (κ × α)} (h : (d.map Prod.fst).Nodup) :
    ((dinsert k v d).map Prod.fst).Nodup := by
  induction d with
  | nil => simp [dinsert]
  | cons e0 rest ih =>
    simp only [dinsert]
    split
    · next he =>
      simp only [List.map_cons, List.nodup_cons] at h ⊢
      exact ⟨by rw [← he]; exact h.1, h.2⟩
    · next he =>
      simp only [List.map_cons, List.nodup_cons] at h ⊢
      refine ⟨?_, ih h.2⟩
      intro hmem
      rcases mem_keys_dinsert hmem with h1 | h1
      · exact he h1
      · exact h.1 h1

theorem dget_mem {κ α : Type} [DecidableEq κ] {d : List (κ × α)} {k : κ}
    {v : α} (h : dget d k = some v) : (k, v) ∈ d := by
  induction d with
  | nil => simp [dget] at h
  | cons e rest ih =>
    simp only [dget] at h
    split at h
    · next he =>
      injection h with h2
      have : (k, v) = e := by rw [← he, ← h2]
      rw [this]
      exact List.mem_cons_self _ _
    · exact List.mem_cons_of_mem _ (ih h)

theorem dget_of_mem_nodup {κ α : Type} [DecidableEq κ] {d : List (κ × α)}
    {k : κ} {v : α} (hnd : (d.map Prod.fst).Nodup) (hm : (k, v) ∈ d) :
    dget d k = some v := by
  induction d with
  | nil => cases hm
  | cons e rest ih =>
    simp only [List.map_cons, List.nodup_cons] at hnd
    rcases List.mem_cons.mp hm with h1 | h1
    · rw [← h1]; simp [dget]
    · simp only [dget]
      split
      · next he =>
        exact absurd (by rw [he]; exact List.mem_map_of_mem Prod.fst h1)
          hnd.1
      · exact ih hnd.2 h1

theorem dget_isSome_iff {κ α : Type} [DecidableEq κ] (d : List (κ × α))
    (k : κ) : (dget d k).isSome = true ↔ k ∈ d.map Prod.fst := by
  induction d with
  | nil => simp [dget]
  | cons e rest ih =>
    simp only [dget, List.map_cons, List.mem_cons]
    split
    · next he => simp [← he]
    · next he =>
      rw [ih]
      simp [show ¬(k = e.1) from fun h => he h.symm]

/-! ### Adjacency-phase characterization -/

theorem length_adjacency_coords (b : Bool) (p : Int × Int) :
    (adjacency_coords b p).length = if b then 6 else 8 := by
  cases b <;> rfl

theorem mem_insert_chars {pt : Table} {b : Bool} {p : Int × Int} :
    ∀ {cs : List Char} {g : Graph} {e : Char × List (Option Token)},
    e ∈ insert_chars pt b p cs g →
    e ∈ g ∨ e.2 = (adjacency_coords b p).map (fun q => dget pt q) := by
  intro cs
  induction cs with
  | nil => intro g e h; exact Or.inl h
  | cons c cs ih =>
    intro g e h
    rcases ih h with h1 | h1
    · rcases mem_dinsert h1 with h2 | h2
      · right; rw [h2]
      · left; exact h2
    · right; exact h1

theorem mem_build_aux {pt : Table} {b : Bool} :
    ∀ {rest : Table} {g : Graph} {e : Char × List (Option Token)},
    e ∈ build_adjacency_aux pt b rest g →
    e ∈ g ∨ ∃ p, e.2 = (adjacency_coords b p).map (fun q => dget pt q) := by
  intro rest
  induction rest with
  | nil => intro g e h; exact Or.inl h
  | cons e0 rest ih =>
    intro g e h
    rcases ih h with h1 | h1
    · rcases mem_insert_chars h1 with h2 | h2
      · exact Or.inl h2
      · exact Or.inr ⟨e0.1, h2⟩
    · exact Or.inr h1

theorem dget_insert_chars (pt : Table) (b : Bool) (p : Int × Int) :
    ∀ (cs : List Char) (g : Graph) (c : Char),
    dget (insert_chars pt b p cs g) c =
      if c ∈ cs then some ((adjacency_coords b p).map (fun q => dget pt q))
      else dget g c := by
  intro cs
  induction cs with
  | nil => intro g c; simp [insert_chars]
  | cons c0 cs ih =>
    intro g c
    simp only [insert_chars]
    rw [ih]
    by_cases h1 : c ∈ cs
    · simp [h1]
    · rw [if_neg h1, dget_dinsert]
      by_cases h2 : c = c0
      · simp [h2]
      · simp [h1, h2]

theorem dget_build_aux (pt : Table) (b : Bool) :
    ∀ (rest : Table) (g : Graph) (c : Char),
    dget (build_adjacency_aux pt b rest g) c =
      match last_tok_pos rest c with
      | some p => some ((adjacency_coords b p).map (fun q => dget pt q))
      | none => dget g c := by
  intro rest
  induction rest with
  | nil => intro g c; simp [build_adjacency_aux, last_tok_pos]
  | cons e rest ih =>
    intro g c
    simp only [build_adjacency_aux, last_tok_pos]
    rw [ih]
    cases hl : last_tok_pos rest c with
    | some p => simp
    | none =>
      simp only []
      rw [dget_insert_chars]
      by_cases hc : c ∈ e.2
      · simp [hc]
      · simp [hc]

theorem dget_build_adjacency (pt : Table) (b : Bool) (c : Char) :
    dget (build_adjacency pt b) c =
      (last_tok_pos pt c).map
        (fun p => (adjacency_coords b p).map (fun q => dget pt q)) := by
  unfold build_adjacency
  rw [dget_build_aux]
  cases last_tok_pos pt c <;> simp [dget]

theorem last_tok_pos_mem {pt : Table} {c : Char} {p : Int × Int}
    (h : last_tok_pos pt c = some p) : ∃ t, (p, t) ∈ pt ∧ c ∈ t := by
  induction pt with
  | nil => simp [last_tok_pos] at h
  | cons e rest ih =>
    simp only [last_tok_pos] at h
    cases hl : last_tok_pos rest c with
    | some q =>
      rw [hl] at h
      injection h with h
      subst h
      obtain ⟨t, ht, hc⟩ := ih hl
      exact ⟨t, List.mem_cons_of_mem _ ht, hc⟩
    | none =>
      rw [hl] at h
      by_cases hc : c ∈ e.2
      · rw [if_pos hc] at h
        injection h with h
        refine ⟨e.2, ?_, hc⟩
        rw [← h]
        simp
      · rw [if_neg hc] at h
        cases h

theorem last_tok_pos_isSome_iff (pt : Table) (c : Char) :
    (last_tok_pos pt c).isSome = true ↔ ∃ e ∈ pt, c ∈ e.2 := by
  induction pt with
  | nil => simp [last_tok_pos]
  | cons e rest ih =>
    simp only [last_tok_pos]
    cases hl : last_tok_pos rest c with
    | some q =>
      rw [hl] at ih
      simp only [Option.isSome_some, true_iff] at ih
      obtain ⟨e1, he1, hc1⟩ := ih
      simp only [Option.isSome_some, true_iff]
      exact ⟨e1, List.mem_cons_of_mem _ he1, hc1⟩
    | none =>
      rw [hl] at ih
      simp only [Option.isSome_none, Bool.false_eq_true, false_iff] at ih
      push_neg at ih
      by_cases hc : c ∈ e.2
      · simp only [if_pos hc, Option.isSome_some, true_iff]
        exact ⟨e, List.mem_cons_self _ _, hc⟩
      · simp only [if_neg hc, Option.isSome_none, Bool.false_eq_true,
          false_iff]
        push_neg
        intro e1 he1
        rcases List.mem_cons.mp he1 with h1 | h1
        · rw [h1]; exact hc
        · exact ih e1 h1

theorem last_tok_pos_eq_none {pt : Table} {c : Char}
    (h : ∀ e ∈ pt, c ∉ e.2) : last_tok_pos pt c = none := by
  induction pt with
  | nil => rfl
  | cons e rest ih =>
    simp only [last_tok_pos]
    rw [ih (fun e1 he1 => h e1 (List.mem_cons_of_mem _ he1))]
    rw [if_neg (h e (List.mem_cons_self _ _))]

theorem mem_char_entries {pt : Table} {c : Char} {e : (Int × Int) × Token} :
    e ∈ char_entries pt c ↔ e ∈ pt ∧ c ∈ e.2 := by
  simp [char_entries, List.mem_filter]

theorem last_tok_pos_of_singleton {pt : Table} {c : Char} {p : Int × Int}
    {t : Token} (h : char_entries pt c = [(p, t)]) :
    last_tok_pos pt c = some p := by
  induction pt with
  | nil => simp [char_entries] at h
  | cons e rest ih =>
    simp only [char_entries, List.filter_cons] at h
    simp only [last_tok_pos]
    by_cases hc : c ∈ e.2
    · rw [if_pos (by simpa using hc)] at h
      rw [List.cons.injEq] at h
      have hnil : ∀ e1 ∈ rest, c ∉ e1.2 := by
        intro e1 he1 hce1
        have : e1 ∈ char_entries rest c := mem_char_entries.mpr ⟨he1, hce1⟩
        rw [show char_entries rest c = List.filter
          (fun e => decide (c ∈ e.2)) rest from rfl, h.2] at this
        cases this
      rw [last_tok_pos_eq_none hnil, if_pos hc, h.1]
    · rw [if_neg (by simpa using hc)] at h
      rw [ih h]

/-! ### Build inversion and slanted-coordinate symmetry -/

theorem build_graph_ok {s : List Char} {b : Bool} {g : Graph}
    (h : build_graph s b = .ok g) :
    ∃ pt, parse_table s b = .ok pt ∧ g = build_adjacency pt b := by
  unfold build_graph at h
  cases hp : parse_table s b with
  | error e => rw [hp] at h; cases h
  | ok pt =>
    rw [hp] at h
    injection h with h
    exact ⟨pt, rfl, h.symm⟩

theorem slanted_opposite {p p2 : Int × Int} {i : Nat} (hi : i < 6)
    (h : (get_slanted_adjacent_coords p.1 p.2).get? i = some p2) :
    (get_slanted_adjacent_coords p2.1 p2.2).get? ((i + 3) % 6) = some p := by
  obtain ⟨x, y⟩ := p
  obtain ⟨x2, y2⟩ := p2
  interval_cases i <;>
    (simp only [get_slanted_adjacent_coords, List.get?] at h ⊢;
     injection h with h;
     rw [Prod.mk.injEq] at h;
     simp only [Option.some.injEq, Prod.mk.injEq];
     constructor <;> omega)

/-! ### Small concrete inputs used by witnesses and counterexamples -/

set_option maxRecDepth 40000

/-- A two-key slanted table: `ab` at (0,1), `cd` at (1,1). -/
def demo_table : Table := [((0, 1), ['a', 'b']), ((1, 1), ['c', 'd'])]

/-- A well-formed slanted diagram in which the character `b` occurs in
three different tokens. -/
def dup_char_layout : List Char := String.toList "\nab cb\n bz"

/-- The graph built from `dup_char_layout`. -/
def dup_char_graph : Graph :=
  (build_graph dup_char_layout true).toOption.getD []

/-! ### Claim theorems -/

/-- C1, counterexample: on the qwerty layout the neighbor entries of
`g` are the entire two-character tokens (`fF`, `tT`, ...), so the
direction-0 entry is `['f', 'F']` and not the single matching-index
character `['f']` the claim describes. -/
theorem C1_counterexample :
    dget qwerty_graph 'g' =
      some [some ['f', 'F'], some ['t', 'T'], some ['y', 'Y'],
        some ['h', 'H'], some ['b', 'B'], some ['v', 'V']] ∧
    (['f', 'F'] : Token) ≠ ['f'] :=
  ⟨by decide, by decide⟩

/-- C1 (amended): for every character `c` occurring in exactly one
table entry `(p, t)`, the built graph maps `c` to the list that has, at
each direction index, the ENTIRE token of the neighboring coordinate
when that coordinate is occupied and the no-neighbor marker when it is
not (`dget pt q` for each offset coordinate `q`, in clockwise order). -/
theorem C1_full_token_neighbors (pt : Table) (b : Bool) (c : Char)
    (p : Int × Int) (t : Token) (h : char_entries pt c = [(p, t)]) :
    dget (build_adjacency pt b) c =
      some ((adjacency_coords b p).map (fun q => dget pt q)) := by
  rw [dget_build_adjacency, last_tok_pos_of_singleton h]
  rfl

/-- C1, witness: the amended theorem evaluated on a concrete two-key
table. -/
theorem C1_witness :
    dget (build_adjacency demo_table true) 'a' =
      some ((adjacency_coords true (0, 1)).map (fun q => dget demo_table q)) :=
  C1_full_token_neighbors demo_table true 'a' (0, 1) ['a', 'b'] (by decide)

/-- C2, counterexample: on the qwerty graph, `g` does not map to the
single-character lists `[f, t, y, h, b, v]`. -/
theorem C2_counterexample :
    dget qwerty_graph 'g' ≠
      some [some ['f'], some ['t'], some ['y'], some ['h'], some ['b'],
        some ['v']] := by
  decide

/-- C2 (amended): on the qwerty graph, `g` maps to exactly the neighbor
tokens `[fF, tT, yY, hH, bB, vV]`, clockwise starting at "left". -/
theorem C2_g_neighbor_tokens :
    dget qwerty_graph 'g' =
      some [some ['f', 'F'], some ['t', 'T'], some ['y', 'Y'],
        some ['h', 'H'], some ['b', 'B'], some ['v', 'V']] := by
  decide

/-- C3: in every graph the builder produces, every character's
adjacency list has length exactly the geometry's neighbor count: 6 for
slanted layouts, 8 for aligned ones. -/
theorem C3_adjacency_list_lengths (s : List Char) (b : Bool) (g : Graph)
    (h : build_graph s b = .ok g) :
    g.all (fun e => e.2.length == if b then 6 else 8) = true := by
  obtain ⟨pt, _, rfl⟩ := build_graph_ok h
  rw [List.all_eq_true]
  intro e he
  unfold build_adjacency at he
  rcases mem_build_aux he with h0 | ⟨p, hp⟩
  · cases h0
  · rw [beq_iff_eq, hp, List.length_map, length_adjacency_coords]

/-- C3, witness: the length property evaluated on the keypad graph. -/
theorem C3_witness :
    keypad_graph.all (fun e => e.2.length == if false then 6 else 8) = true :=
  C3_adjacency_list_lengths keypad false keypad_graph rfl

/-- C4, counterexample: in the slanted graph of `dup_char_layout`
(`ab` at (0,1), `cb` at (1,1), `bz` at (0,2)), `b` is in the neighbor
token of `a` at direction index 3, but `b`'s own adjacency list — taken
from its LAST containing token `bz` — has the no-neighbor marker at
index (3+3) % 6 = 0, so `a` does not appear there. -/
theorem C4_counterexample :
    dget dup_char_graph 'a' =
      some [none, none, none, some ['c', 'b'], some ['b', 'z'], none] ∧
    'b' ∈ (['c', 'b'] : Token) ∧
    dget dup_char_graph 'b' =
      some [none, some ['a', 'b'], some ['c', 'b'], none, none, none] ∧
    ([none, some ['a', 'b'], some ['c', 'b'], none, none, none] :
        List (Option Token)).get? ((3 + 3) % 6) = some none :=
  ⟨by decide, by decide, by decide, by decide⟩

/-- C4 (amended): in a slanted graph built from a table with distinct
keys, if `c2` lies in the neighbor token of `c` at direction index
`i < 6` and `c2` occurs in exactly one table entry, then `c` appears in
the token at direction index `(i + 3) % 6` of `c2`'s adjacency list. -/
theorem C4_slanted_symmetry (pt : Table) (c c2 : Char) (i : Nat)
    (l : List (Option Token)) (t2 : Token)
    (hnd : (pt.map Prod.fst).Nodup)
    (hl : dget (build_adjacency pt true) c = some l)
    (hi : i < 6)
    (hn : l.get? i = some (some t2))
    (hmem : c2 ∈ t2)
    (hu : (char_entries pt c2).length = 1) :
    ∃ l2 t, dget (build_adjacency pt true) c2 = some l2 ∧
      l2.get? ((i + 3) % 6) = some (some t) ∧ c ∈ t := by
  rw [dget_build_adjacency] at hl
  rcases Option.map_eq_some'.mp hl with ⟨p, hp, hlp⟩
  rw [← hlp, List.get?_map] at hn
  rcases Option.map_eq_some'.mp hn with ⟨p2, hp2, hd2⟩
  have hp2' : (get_slanted_adjacent_coords p.1 p.2).get? i = some p2 := by
    simpa [adjacency_coords] using hp2
  have hopp := slanted_opposite hi hp2'
  have hent : (p2, t2) ∈ char_entries pt c2 :=
    mem_char_entries.mpr ⟨dget_mem hd2, hmem⟩
  obtain ⟨e0, he0⟩ := List.length_eq_one.mp hu
  have he0' : char_entries pt c2 = [(p2, t2)] := by
    rw [he0]
    rw [he0] at hent
    rw [List.mem_singleton.mp hent]
  have hl2 : last_tok_pos pt c2 = some p2 := last_tok_pos_of_singleton he0'
  obtain ⟨tc, htc, hctc⟩ := last_tok_pos_mem hp
  have hdp : dget pt p = some tc := dget_of_mem_nodup hnd htc
  refine ⟨(adjacency_coords true p2).map (fun q => dget pt q), tc, ?_, ?_,
    hctc⟩
  · rw [dget_build_adjacency, hl2]
    rfl
  · rw [List.get?_map]
    have hg : (adjacency_coords true p2).get? ((i + 3) % 6) = some p := by
      simpa [adjacency_coords] using hopp
    rw [hg]
    simp [hdp]

/-- C4, witness: the amended symmetry evaluated on a concrete two-key
slanted table, with c = a, c2 = c, i = 3. -/
theorem C4_witness :
    ∃ l2 t, dget (build_adjacency demo_table true) 'c' = some l2 ∧
      l2.get? ((3 + 3) % 6) = some (some t) ∧ 'a' ∈ t :=
  C4_slanted_symmetry demo_table 'a' 'c' 3
    [none, none, none, some ['c', 'd'], none, none] ['c', 'd']
    (by decide) (by decide) (by decide) (by decide) (by decide) (by decide)

/-- C7: in the keypad graph, `7` has the no-neighbor marker at the
"left", "top-left" and "top" direction indices 0, 1 and 2. -/
theorem C7_keypad_seven_corner :
    ∃ l, dget keypad_graph '7' = some l ∧ l.get? 0 = some none ∧
      l.get? 1 = some none ∧ l.get? 2 = some none :=
  ⟨[none, none, none, some ['/'], some ['8'], some ['5'], some ['4'], none],
    by decide, rfl, rfl, rfl⟩

/-- C8: the average degree of the qwerty graph (non-marker entries
divided by graph size, here 432 / 94) lies strictly between 1 and 6. -/
theorem C8_average_degree_bounds :
    1 < average_degree qwerty_graph ∧ average_degree qwerty_graph < 6 := by
  have h1 : total_degree qwerty_graph = 432 := by decide
  have h2 : qwerty_graph.length = 94 := by decide
  unfold average_degree
  rw [h1, h2]
  norm_num

/-! ### Parse-success facts -/

/-- The `x_unit` the script derives from a diagram: the first token's
width plus one separator column. -/
def x_unit_of (s : List Char) : Int :=
  (((splitWs s).headD []).length : Int) + 1

theorem parse_line_ok_rem (src : List Char) (b : Bool) (u : Int) (y : Nat)
    (line : List Char) :
    ∀ (toks : List Token) (pt pt' : Table),
    parse_line src b u y line toks pt = .ok pt' →
    ∀ tok ∈ toks, ∃ col : Nat, index_of line tok = some col ∧
      Int.emod ((col : Int) - slant_of b y) u = 0 := by
  intro toks
  induction toks with
  | nil => intro pt pt' _ tok htok; cases htok
  | cons t ts ih =>
    intro pt pt' h tok htok
    simp only [parse_line] at h
    split at h
    · cases h
    · next col hidx =>
      split at h
      · next hr =>
        rcases List.mem_cons.mp htok with rfl | htok2
        · exact ⟨col, hidx, hr⟩
        · exact ih _ _ h tok htok2
      · cases h

theorem parse_lines_ok_rem (src : List Char) (b : Bool) (u : Int) :
    ∀ (ls : List (List Char)) (y : Nat) (pt pt' : Table),
    parse_lines src b u y ls pt = .ok pt' →
    ∀ (j : Nat) (line : List Char), ls.get? j = some line →
    ∀ tok ∈ splitWs line, ∃ col : Nat, index_of line tok = some col ∧
      Int.emod ((col : Int) - slant_of b (y + j)) u = 0 := by
  intro ls
  induction ls with
  | nil => intro y pt pt' _ j line hj; simp at hj
  | cons l ls ih =>
    intro y pt pt' h j line hj
    simp only [parse_lines] at h
    cases hpl : parse_line src b u y l (splitWs l) pt with
    | error e => rw [hpl] at h; cases h
    | ok pt2 =>
      rw [hpl] at h
      cases j with
      | zero =>
        simp only [List.get?] at hj
        injection hj with hj
        subst hj
        intro tok htok
        simpa using parse_line_ok_rem src b u y l (splitWs l) pt pt2
          hpl tok htok
      | succ j =>
        simp only [List.get?] at hj
        intro tok htok
        have hres := ih (y + 1) pt2 pt' h j line hj tok htok
        rw [show (y + 1) + j = y + (j + 1) by omega] at hres
        exact hres

/-! ### Claims C5 and C6 -/

/-- C5: if two whitespace-separated tokens of a diagram differ in
length, the builder fails with the token-length error naming the
diagram, and produces no graph. -/
theorem C5_width_mismatch_fails (s : List Char) (b : Bool) (t1 t2 : Token)
    (h1 : t1 ∈ splitWs s) (h2 : t2 ∈ splitWs s)
    (hne : t1.length ≠ t2.length) :
    build_graph s b = .error ("token len mismatch:\n " ++ String.mk s) := by
  have hp : parse_table s b =
      .error ("token len mismatch:\n " ++ String.mk s) := by
    unfold parse_table
    split
    · next heq => rw [heq] at h1; cases h1
    · next t0 rest heq =>
      rw [heq] at h1 h2
      have hbad : ¬((t0 :: rest).all (fun t => t.length == t0.length) = true) := by
        intro hall
        rw [List.all_eq_true] at hall
        have e1 := hall t1 h1
        have e2 := hall t2 h2
        rw [beq_iff_eq] at e1 e2
        exact hne (e1.trans e2.symm)
      rw [if_neg hbad]
  unfold build_graph
  rw [hp]

/-- C5, witness: the diagram with tokens `ab` and `c`. -/
theorem C5_witness :
    build_graph (String.toList "ab c") false =
      .error ("token len mismatch:\n " ++ String.mk (String.toList "ab c")) :=
  C5_width_mismatch_fails (String.toList "ab c") false ['a', 'b'] ['c']
    (by decide) (by decide) (by decide)

/-- C6: if any token of any diagram line sits at a column offset whose
distance from the row's slant is not a multiple of the diagram's
`x_unit`, the builder does not produce a graph. -/
theorem C6_misaligned_offset_fails (s : List Char) (b : Bool) (y : Nat)
    (line tok : List Char) (col : Nat)
    (hline : (splitNl s).get? y = some line)
    (htok : tok ∈ splitWs line)
    (hcol : index_of line tok = some col)
    (hrem : Int.emod ((col : Int) - slant_of b y) (x_unit_of s) ≠ 0) :
    except_is_ok (build_graph s b) = false := by
  cases hg : build_graph s b with
  | error e => rfl
  | ok g =>
    exfalso
    obtain ⟨pt, hp, _⟩ := build_graph_ok hg
    unfold parse_table at hp
    split at hp
    · cases hp
    · next t0 rest heq =>
      split at hp
      · obtain ⟨col', hcol', hrem'⟩ :=
          parse_lines_ok_rem s b ((t0.length : Int) + 1) (splitNl s) 0 [] pt
            hp y line hline tok htok
        rw [hcol] at hcol'
        injection hcol' with hcc
        subst hcc
        apply hrem
        have hx : x_unit_of s = (t0.length : Int) + 1 := by
          unfold x_unit_of
          rw [heq]
          rfl
        rw [hx]
        simpa using hrem'
      · cases hp

/-- C6, witness: in the aligned diagram `ab  cd` the token `cd` sits at
column 4, which is not a multiple of the unit width 3. -/
theorem C6_witness :
    except_is_ok (build_graph (String.toList "ab  cd") false) = false :=
  C6_misaligned_offset_fails (String.toList "ab  cd") false 0
    (String.toList "ab  cd") (String.toList "cd") 4
    (by decide) (by decide) (by decide) (by decide)

/-! ### Substring-index characterization -/

theorem index_go_spec (tok : List Char) :
    ∀ (l : List Char) (i j : Nat), index_go tok l i = some j →
    i ≤ j ∧ (l.drop (j - i)).take tok.length = tok := by
  intro l
  induction l with
  | nil =>
    intro i j h
    simp only [index_go] at h
    split at h
    · next ht =>
      injection h with h
      subst h
      simp [ht]
    · cases h
  | cons c cs ih =>
    intro i j h
    simp only [index_go] at h
    split at h
    · next ht =>
      injection h with h
      subst h
      simpa using ht
    · next ht =>
      obtain ⟨hle, htake⟩ := ih (i + 1) j h
      refine ⟨by omega, ?_⟩
      rw [show j - i = (j - (i + 1)) + 1 by omega]
      simpa using htake

theorem index_of_take {line tok : List Char} {col : Nat}
    (h : index_of line tok = some col) :
    (line.drop col).take tok.length = tok := by
  have := (index_go_spec tok line 0 col h).2
  simpa using this

theorem index_of_inj {line t1 t2 : List Char} {col : Nat}
    (h1 : index_of line t1 = some col) (h2 : index_of line t2 = some col)
    (hl : t1.length = t2.length) : t1 = t2 := by
  have a1 := index_of_take h1
  have a2 := index_of_take h2
  rw [← a1, ← a2, hl]

/-! ### Whitespace splitting distributes over the line structure -/

theorem splitNlAux_shift :
    ∀ (s lacc : List Char), ∃ l0 rest, splitNlAux s [] = l0 :: rest ∧
      splitNlAux s lacc = (lacc.reverse ++ l0) :: rest := by
  intro s
  induction s with
  | nil => intro lacc; exact ⟨[], [], rfl, by simp [splitNlAux]⟩
  | cons c cs ih =>
    intro lacc
    by_cases hc : c = '\n'
    · subst hc
      exact ⟨[], splitNlAux cs [], by simp [splitNlAux], by simp [splitNlAux]⟩
    · obtain ⟨l0, rest, h1, h2⟩ := ih [c]
      obtain ⟨l0', rest', h1', h2'⟩ := ih (c :: lacc)
      rw [h1] at h1'
      injection h1' with e1 e2
      subst e1
      subst e2
      refine ⟨c :: l0, rest, ?_, ?_⟩
      · show splitNlAux (c :: cs) [] = (c :: l0) :: rest
        simp only [splitNlAux, if_neg hc]
        simpa using h2
      · show splitNlAux (c :: cs) lacc = (lacc.reverse ++ (c :: l0)) :: rest
        simp only [splitNlAux, if_neg hc]
        rw [h2']
        simp

theorem splitWsAux_lines :
    ∀ (s : List Char) (tacc : List Char) (l0 : List Char)
      (rest : List (List Char)), splitNl s = l0 :: rest →
    splitWsAux s tacc =
      splitWsAux l0 tacc ++ (rest.map (fun l => splitWsAux l [])).flatten := by
  intro s
  induction s with
  | nil =>
    intro tacc l0 rest h
    simp only [splitNl, splitNlAux, List.reverse_nil] at h
    injection h with e1 e2
    subst e1
    subst e2
    simp
  | cons c cs ih =>
    intro tacc l0 rest h
    obtain ⟨m0, mrest, hm1, _⟩ := splitNlAux_shift cs []
    by_cases hc : c = '\n'
    · subst hc
      have hni : splitNl ('\n' :: cs) = [] :: splitNl cs := by
        simp [splitNl, splitNlAux]
      rw [hni] at h
      injection h with e1 e2
      subst e1
      subst e2
      have hrec := ih [] m0 mrest hm1
      have hflat : ((splitNl cs).map (fun l => splitWsAux l [])).flatten =
          splitWsAux cs [] := by
        rw [show splitNl cs = m0 :: mrest from hm1, List.map_cons,
          List.flatten_cons, ← hrec]
      have hsp : pyIsSpace '\n' = true := rfl
      by_cases ht : tacc = []
      · simp [splitWsAux, hsp, ht, hflat]
      · simp [splitWsAux, hsp, ht, hflat]
    · obtain ⟨l0', rest', h1', h2'⟩ := splitNlAux_shift cs [c]
      have hcc : splitNl (c :: cs) = (c :: l0') :: rest' := by
        simp only [splitNl, splitNlAux, if_neg hc]
        simpa using h2'
      rw [hcc] at h
      injection h with e1 e2
      subst e2
      rw [← e1]
      by_cases hsp : pyIsSpace c = true
      · have hrec := ih [] l0' rest' h1'
        by_cases ht : tacc = []
        · simp only [splitWsAux, hsp, if_true, ht, if_pos rfl]
          rw [hrec]
        · simp only [splitWsAux, hsp, if_true, if_neg ht]
          rw [hrec]
          simp
      · have hrec := ih (c :: tacc) l0' rest' h1'
        have hspb : pyIsSpace c = false := by
          cases hx : pyIsSpace c
          · rfl
          · exact absurd hx hsp
        simp only [splitWsAux, hspb]
        exact hrec

theorem splitWs_flatten (s : List Char) :
    splitWs s = ((splitNl s).map (fun l => splitWs l)).flatten := by
  obtain ⟨l0, rest, h1, _⟩ := splitNlAux_shift s []
  have h1' : splitNl s = l0 :: rest := h1
  show splitWsAux s [] = _
  rw [splitWsAux_lines s [] l0 rest h1', h1']
  simp [splitWs]

theorem mem_splitWs_of_line {s line : List Char} {tok : Token}
    (hl : line ∈ splitNl s) (ht : tok ∈ splitWs line) :
    tok ∈ splitWs s := by
  rw [splitWs_flatten]
  exact List.mem_flatten.mpr ⟨splitWs line, List.mem_map_of_mem _ hl, ht⟩

theorem exists_line_of_mem_splitWs {s : List Char} {tok : Token}
    (h : tok ∈ splitWs s) :
    ∃ (j : Nat) (line : List Char), (splitNl s).get? j = some line ∧
      tok ∈ splitWs line := by
  rw [splitWs_flatten] at h
  rcases List.mem_flatten.mp h with ⟨L, hL, htok⟩
  rcases List.mem_map.mp hL with ⟨line, hline, rfl⟩
  rcases List.get?_of_mem hline with ⟨j, hj⟩
  exact ⟨j, line, hj, htok⟩

/-! ### Row invariants of the parsing loop -/

/-- What the parser knows about an entry it created while scanning
`line` at row `y`: the token is one of the line's tokens, located at a
first-occurrence column whose slant-corrected offset is exactly
`x * u`. -/
def row_prop (b : Bool) (u : Int) (y : Nat) (line : List Char) (x : Int)
    (tok : Token) : Prop :=
  tok ∈ splitWs line ∧ ∃ col : Nat, index_of line tok = some col ∧
    (col : Int) - slant_of b y = x * u

/-- All row-`y` entries of a table satisfy `row_prop` for `line`. -/
def row_inv (b : Bool) (u : Int) (y : Nat) (line : List Char)
    (pt : Table) : Prop :=
  ∀ x tok, ((x, (y : Int)), tok) ∈ pt → row_prop b u y line x tok

theorem parse_line_ok_inv (src : List Char) (b : Bool) (w : Nat) (y : Nat)
    (line : List Char) (hw : ∀ t ∈ splitWs line, t.length = w) :
    ∀ (toks : List Token) (pt pt' : Table),
    (∀ t ∈ toks, t ∈ splitWs line) →
    row_inv b ((w : Int) + 1) y line pt →
    parse_line src b ((w : Int) + 1) y line toks pt = .ok pt' →
    (∀ e ∈ pt, e ∈ pt') ∧
    row_inv b ((w : Int) + 1) y line pt' ∧
    (∀ e ∈ pt', e ∈ pt ∨ e.1.2 = (y : Int)) ∧
    (∀ tok ∈ toks, ∃ x, ((x, (y : Int)), tok) ∈ pt') := by
  intro toks
  induction toks with
  | nil =>
    intro pt pt' _ hinv h
    simp only [parse_line] at h
    injection h with h
    subst h
    exact ⟨fun e he => he, hinv, fun e he => Or.inl he,
      fun tok htok => absurd htok (List.not_mem_nil _)⟩
  | cons t ts ih =>
    intro pt pt' htoks hinv h
    simp only [parse_line] at h
    split at h
    · cases h
    · next col hidx =>
      split at h
      · next hr =>
        have hx1 : (col : Int) - slant_of b y =
            (Int.ediv ((col : Int) - slant_of b y) ((w : Int) + 1)) *
              ((w : Int) + 1) := by
          have h2 := Int.ediv_add_emod ((col : Int) - slant_of b y)
            ((w : Int) + 1)
          have hr' : ((col : Int) - slant_of b y) % ((w : Int) + 1) = 0 := hr
          rw [hr', add_zero] at h2
          exact h2.symm.trans (mul_comm _ _)
        have hnew : row_prop b ((w : Int) + 1) y line
            (Int.ediv ((col : Int) - slant_of b y) ((w : Int) + 1)) t :=
          ⟨htoks t (List.mem_cons_self _ _), col, hidx, hx1⟩
        have hinv2 : row_inv b ((w : Int) + 1) y line
            (dinsert (Int.ediv ((col : Int) - slant_of b y) ((w : Int) + 1),
              (y : Int)) t pt) := by
          intro x tok hmem
          rcases mem_dinsert hmem with heq | hold
          · injection heq with hkey hval
            injection hkey with hx hy
            subst hx
            subst hval
            exact hnew
          · exact hinv x tok hold
        have hsub : ∀ e ∈ pt,
            e ∈ dinsert (Int.ediv ((col : Int) - slant_of b y)
              ((w : Int) + 1), (y : Int)) t pt := by
          intro e he
          by_cases hk : e.1 = (Int.ediv ((col : Int) - slant_of b y)
              ((w : Int) + 1), (y : Int))
          · have he' : ((Int.ediv ((col : Int) - slant_of b y)
                ((w : Int) + 1), (y : Int)), e.2) ∈ pt := by
              rw [← hk]
              simpa using he
            obtain ⟨hmem0, col0, hcol0, heq0⟩ :=
              hinv (Int.ediv ((col : Int) - slant_of b y) ((w : Int) + 1))
                e.2 he'
            have hsame : (col0 : Int) - slant_of b y =
                (col : Int) - slant_of b y := heq0.trans hx1.symm
            have hcols : col0 = col := by omega
            have htoksame : e.2 = t := by
              refine index_of_inj hcol0 ?_ ?_
              · rw [hcols]; exact hidx
              · rw [hw _ hmem0, hw _ (htoks t (List.mem_cons_self _ _))]
            have hee : e = ((Int.ediv ((col : Int) - slant_of b y)
                ((w : Int) + 1), (y : Int)), t) := by
              rw [← hk, ← htoksame]
            rw [hee]
            exact mem_dinsert_self _ _ _
          · exact mem_dinsert_of_ne he hk
        obtain ⟨s1, s2, s3, s4⟩ := ih _ pt'
          (fun t' ht' => htoks t' (List.mem_cons_of_mem _ ht')) hinv2 h
        refine ⟨fun e he => s1 e (hsub e he), s2, ?_, ?_⟩
        · intro e he
          rcases s3 e he with h1 | h1
          · rcases mem_dinsert h1 with h2 | h2
            · right; rw [h2]
            · left; exact h2
          · right; exact h1
        · intro tok htok
          rcases List.mem_cons.mp htok with rfl | htok2
          · exact ⟨_, s1 _ (mem_dinsert_self _ _ _)⟩
          · exact s4 tok htok2
      · cases h

theorem parse_lines_ok_inv (src : List Char) (b : Bool) (w : Nat) :
    ∀ (ls : List (List Char)) (y : Nat) (pt pt' : Table),
    (∀ l ∈ ls, ∀ t ∈ splitWs l, t.length = w) →
    (∀ e ∈ pt, e.1.2 < (y : Int)) →
    parse_lines src b ((w : Int) + 1) y ls pt = .ok pt' →
    (∀ e ∈ pt, e ∈ pt') ∧
    (∀ e ∈ pt', e ∈ pt ∨ ∃ (j : Nat) (line : List Char),
      ls.get? j = some line ∧ e.1.2 = ((y + j : Nat) : Int) ∧
      row_prop b ((w : Int) + 1) (y + j) line e.1.1 e.2) ∧
    (∀ (j : Nat) (line : List Char), ls.get? j = some line →
      ∀ tok ∈ splitWs line, ∃ x, ((x, ((y + j : Nat) : Int)), tok) ∈ pt') := by
  intro ls
  induction ls with
  | nil =>
    intro y pt pt' _ _ h
    simp only [parse_lines] at h
    injection h with h
    subst h
    refine ⟨fun e he => he, fun e he => Or.inl he, ?_⟩
    intro j line hj
    simp at hj
  | cons l ls ih =>
    intro y pt pt' hws hrows h
    simp only [parse_lines] at h
    cases hpl : parse_line src b ((w : Int) + 1) y l (splitWs l) pt with
    | error e => rw [hpl] at h; cases h
    | ok pt2 =>
      rw [hpl] at h
      have hinv0 : row_inv b ((w : Int) + 1) y l pt := by
        intro x tok hmem
        exact absurd (hrows _ hmem) (lt_irrefl _)
      obtain ⟨p1, p2, p3, p4⟩ := parse_line_ok_inv src b w y l
        (hws l (List.mem_cons_self _ _)) (splitWs l) pt pt2
        (fun t ht => ht) hinv0 hpl
      have hrows2 : ∀ e ∈ pt2, e.1.2 < ((y + 1 : Nat) : Int) := by
        intro e he
        rcases p3 e he with h1 | h1
        · have := hrows e h1
          push_cast
          push_cast at this
          omega
        · rw [h1]
          push_cast
          omega
      obtain ⟨q1, q2, q3⟩ := ih (y + 1) pt2 pt'
        (fun l' hl' => hws l' (List.mem_cons_of_mem _ hl')) hrows2 h
      refine ⟨fun e he => q1 e (p1 e he), ?_, ?_⟩
      · intro e he
        rcases q2 e he with h1 | ⟨j, line, hj, hrow, hprop⟩
        · rcases p3 e h1 with h2 | h2
          · exact Or.inl h2
          · right
            refine ⟨0, l, rfl, by rw [h2]; simp, ?_⟩
            have he' : ((e.1.1, (y : Int)), e.2) ∈ pt2 := by
              rw [← h2]
              simpa using h1
            have := p2 e.1.1 e.2 he'
            simpa using this
        · right
          refine ⟨j + 1, line, by simpa using hj, ?_, ?_⟩
          · rw [hrow]
            congr 1
            omega
          · rw [show y + (j + 1) = (y + 1) + j by omega]
            exact hprop
      · intro j line hj
        cases j with
        | zero =>
          simp only [List.get?] at hj
          injection hj with hj
          subst hj
          intro tok htok
          obtain ⟨x, hx⟩ := p4 tok htok
          exact ⟨x, by simpa using q1 _ hx⟩
        | succ j =>
          simp only [List.get?] at hj
          intro tok htok
          obtain ⟨x, hx⟩ := q3 j line hj tok htok
          exact ⟨x, by rw [show y + (j + 1) = (y + 1) + j by omega]; exact hx⟩

theorem parse_line_keys_nodup (src : List Char) (b : Bool) (u : Int)
    (y : Nat) (line : List Char) :
    ∀ (toks : List Token) (pt pt' : Table),
    (pt.map Prod.fst).Nodup →
    parse_line src b u y line toks pt = .ok pt' →
    (pt'.map Prod.fst).Nodup := by
  intro toks
  induction toks with
  | nil =>
    intro pt pt' hnd h
    simp only [parse_line] at h
    injection h with h
    subst h
    exact hnd
  | cons t ts ih =>
    intro pt pt' hnd h
    simp only [parse_line] at h
    split at h
    · cases h
    · split at h
      · exact ih _ pt' (keys_nodup_dinsert _ _ hnd) h
      · cases h

theorem parse_lines_keys_nodup (src : List Char) (b : Bool) (u : Int) :
    ∀ (ls : List (List Char)) (y : Nat) (pt pt' : Table),
    (pt.map Prod.fst).Nodup →
    parse_lines src b u y ls pt = .ok pt' →
    (pt'.map Prod.fst).Nodup := by
  intro ls
  induction ls with
  | nil =>
    intro y pt pt' hnd h
    simp only [parse_lines] at h
    injection h with h
    subst h
    exact hnd
  | cons l ls ih =>
    intro y pt pt' hnd h
    simp only [parse_lines] at h
    cases hpl : parse_line src b u y l (splitWs l) pt with
    | error e => rw [hpl] at h; cases h
    | ok pt2 =>
      rw [hpl] at h
      exact ih (y + 1) pt2 pt'
        (parse_line_keys_nodup src b u y l (splitWs l) pt pt2 hnd hpl) h

theorem parse_table_ok_elim {s : List Char} {b : Bool} {pt : Table}
    (h : parse_table s b = .ok pt) :
    ∃ t0 rest, splitWs s = t0 :: rest ∧
      (∀ t ∈ splitWs s, t.length = t0.length) ∧
      parse_lines s b ((t0.length : Int) + 1) 0 (splitNl s) [] = .ok pt := by
  unfold parse_table at h
  split at h
  · cases h
  · next t0 rest heq =>
    split at h
    · next hall =>
      refine ⟨t0, rest, heq, ?_, h⟩
      intro t ht
      rw [heq] at ht
      rw [List.all_eq_true] at hall
      exact beq_iff_eq.mp (hall t ht)
    · cases h

theorem parse_table_keys_nodup {s : List Char} {b : Bool} {pt : Table}
    (h : parse_table s b = .ok pt) : (pt.map Prod.fst).Nodup := by
  obtain ⟨t0, rest, _, _, hpl⟩ := parse_table_ok_elim h
  exact parse_lines_keys_nodup s b ((t0.length : Int) + 1) (splitNl s) 0 []
    pt (by simp) hpl

/-! ### Graph keys and table character sets -/

theorem insert_chars_keys_nodup (pt : Table) (b : Bool) (p : Int × Int) :
    ∀ (cs : List Char) (g : Graph), (g.map Prod.fst).Nodup →
    ((insert_chars pt b p cs g).map Prod.fst).Nodup := by
  intro cs
  induction cs with
  | nil => intro g hg; exact hg
  | cons c cs ih =>
    intro g hg
    exact ih _ (keys_nodup_dinsert _ _ hg)

theorem build_aux_keys_nodup (pt : Table) (b : Bool) :
    ∀ (rest : Table) (g : Graph), (g.map Prod.fst).Nodup →
    ((build_adjacency_aux pt b rest g).map Prod.fst).Nodup := by
  intro rest
  induction rest with
  | nil => intro g hg; exact hg
  | cons e rest ih =>
    intro g hg
    exact ih _ (insert_chars_keys_nodup pt b e.1 e.2 g hg)

theorem graph_keys_nodup (pt : Table) (b : Bool) :
    ((build_adjacency pt b).map Prod.fst).Nodup :=
  build_aux_keys_nodup pt b pt [] (by simp)

theorem parse_table_charset {s : List Char} {b : Bool} {pt : Table}
    (h : parse_table s b = .ok pt) :
    ∀ c : Char, (∃ e ∈ pt, c ∈ e.2) ↔ c ∈ (splitWs s).flatten := by
  obtain ⟨t0, rest, heq, hwall, hpl⟩ := parse_table_ok_elim h
  have hws : ∀ l ∈ splitNl s, ∀ t ∈ splitWs l, t.length = t0.length :=
    fun l hl t ht => hwall t (mem_splitWs_of_line hl ht)
  obtain ⟨_, S3, S4⟩ := parse_lines_ok_inv s b t0.length (splitNl s) 0 [] pt
    hws (by intro e he; cases he) hpl
  intro c
  constructor
  · rintro ⟨e, he, hc⟩
    rcases S3 e he with h1 | ⟨j, line, hj, _, hprop⟩
    · cases h1
    · exact List.mem_flatten.mpr
        ⟨e.2, mem_splitWs_of_line (List.get?_mem hj) hprop.1, hc⟩
  · intro hc
    rcases List.mem_flatten.mp hc with ⟨tok, htokmem, hctok⟩
    obtain ⟨j, line, hj, htok⟩ := exists_line_of_mem_splitWs htokmem
    obtain ⟨x, hx⟩ := S4 j line hj tok htok
    exact ⟨_, hx, hctok⟩

theorem nodup_keys_entry_unique {κ α : Type} {d : List (κ × α)}
    {e1 e2 : κ × α} (hnd : (d.map Prod.fst).Nodup) (h1 : e1 ∈ d)
    (h2 : e2 ∈ d) (hk : e1.1 = e2.1) : e1 = e2 := by
  induction d with
  | nil => cases h1
  | cons e rest ih =>
    simp only [List.map_cons, List.nodup_cons] at hnd
    rcases List.mem_cons.mp h1 with ha | ha <;>
      rcases List.mem_cons.mp h2 with hb | hb
    · rw [ha, hb]
    · exact absurd (by rw [← ha, hk]; exact List.mem_map_of_mem Prod.fst hb)
        hnd.1
    · exact absurd (by rw [← hb, ← hk]; exact List.mem_map_of_mem Prod.fst ha)
        hnd.1
    · exact ih hnd.2 ha hb

theorem nodup_all_eq_length_le_one {α : Type} {l : List α} (hnd : l.Nodup)
    (a : α) (h : ∀ x ∈ l, x = a) : l.length ≤ 1 := by
  match l, hnd, h with
  | [], _, _ => simp
  | [x], _, _ => simp
  | x :: y :: t, hnd, h =>
    exfalso
    have hx := h x (List.mem_cons_self _ _)
    have hy := h y (List.mem_cons_of_mem _ (List.mem_cons_self _ _))
    rw [List.nodup_cons] at hnd
    exact hnd.1 (by rw [hx, ← hy]; exact List.mem_cons_self _ _)

/-- C9: for every diagram the builder accepts, the starting-position
count (the graph's size) equals the number of distinct characters
appearing across all whitespace-separated tokens of the diagram. -/
theorem C9_starting_positions (s : List Char) (b : Bool) (g : Graph)
    (h : build_graph s b = .ok g) :
    starting_positions g = ((splitWs s).flatten.dedup).length := by
  obtain ⟨pt, hp, rfl⟩ := build_graph_ok h
  have hknd := graph_keys_nodup pt b
  have hmem : ∀ c : Char,
      c ∈ (build_adjacency pt b).map Prod.fst ↔ ∃ e ∈ pt, c ∈ e.2 := by
    intro c
    rw [← dget_isSome_iff, dget_build_adjacency]
    have hms : ((last_tok_pos pt c).map
        (fun p => (adjacency_coords b p).map (fun q => dget pt q))).isSome =
        (last_tok_pos pt c).isSome := by
      cases last_tok_pos pt c <;> rfl
    rw [hms, last_tok_pos_isSome_iff]
  have hchar := parse_table_charset hp
  show (build_adjacency pt b).length = _
  rw [show (build_adjacency pt b).length =
    ((build_adjacency pt b).map Prod.fst).length from
    (List.length_map _ _).symm]
  rw [← List.toFinset_card_of_nodup hknd, ← List.card_toFinset]
  congr 1
  ext c
  simp only [List.mem_toFinset]
  rw [hmem c, hchar c]

/-- C9, witness: the property evaluated on the keypad layout. -/
theorem C9_witness :
    starting_positions keypad_graph =
      ((splitWs keypad).flatten.dedup).length :=
  C9_starting_positions keypad false keypad_graph rfl

/-- C10: parsing finds each token's column by its FIRST occurrence in
the row, so even when a token occurs twice among a row's tokens, a
successful parse records exactly one coordinate for it in that row. -/
theorem C10_duplicate_token_single_coordinate (s : List Char) (b : Bool)
    (y : Nat) (line : List Char) (tok : Token) (pt : Table)
    (hline : (splitNl s).get? y = some line)
    (hdup : 2 ≤ (splitWs line).count tok)
    (h : parse_table s b = .ok pt) :
    (pt.filter
      (fun e => decide (e.1.2 = (y : Int) ∧ e.2 = tok))).length = 1 := by
  obtain ⟨t0, rest, heq, hwall, hpl⟩ := parse_table_ok_elim h
  have hws : ∀ l ∈ splitNl s, ∀ t ∈ splitWs l, t.length = t0.length :=
    fun l hl t ht => hwall t (mem_splitWs_of_line hl ht)
  obtain ⟨_, S3, S4⟩ := parse_lines_ok_inv s b t0.length (splitNl s) 0 [] pt
    hws (by intro e he; cases he) hpl
  have hknd := parse_table_keys_nodup h
  have htokmem : tok ∈ splitWs line := by
    by_contra hn
    rw [List.count_eq_zero_of_not_mem hn] at hdup
    omega
  obtain ⟨x0, hx0⟩ := S4 y line hline tok htokmem
  have hx0' : ((x0, (y : Int)), tok) ∈ pt := by simpa using hx0
  have hmemf : ((x0, (y : Int)), tok) ∈
      pt.filter (fun e => decide (e.1.2 = (y : Int) ∧ e.2 = tok)) :=
    List.mem_filter.mpr ⟨hx0', by simp⟩
  have hpin : ∀ e ∈ pt, e.1.2 = (y : Int) → e.2 = tok →
      ∃ col : Nat, index_of line tok = some col ∧
        (col : Int) - slant_of b y = e.1.1 * ((t0.length : Int) + 1) := by
    intro e he hrow hval
    rcases S3 e he with h1 | ⟨j, line1, hj1, hrow1, hprop1⟩
    · cases h1
    · have hjy : j = y := by
        rw [hrow] at hrow1
        omega
      subst hjy
      rw [hline] at hj1
      injection hj1 with hj1
      subst hj1
      obtain ⟨_, col, hcol, heqx⟩ := hprop1
      rw [hval] at hcol
      refine ⟨col, hcol, ?_⟩
      simpa using heqx
  have hallx : ∀ e ∈ pt.filter
      (fun e => decide (e.1.2 = (y : Int) ∧ e.2 = tok)),
      e = ((x0, (y : Int)), tok) := by
    intro e he
    rw [List.mem_filter] at he
    obtain ⟨hept, hcond⟩ := he
    have hcond' := of_decide_eq_true hcond
    obtain ⟨col1, hcol1, heq1⟩ := hpin e hept hcond'.1 hcond'.2
    obtain ⟨col2, hcol2, heq2⟩ := hpin ((x0, (y : Int)), tok) hx0' rfl rfl
    rw [hcol1] at hcol2
    injection hcol2 with hcc
    subst hcc
    have hu : ((t0.length : Int) + 1) ≠ 0 := by positivity
    have hmul : e.1.1 * ((t0.length : Int) + 1) =
        x0 * ((t0.length : Int) + 1) := by
      rw [← heq1, ← heq2]
    have hxx : e.1.1 = x0 := mul_right_cancel₀ hu hmul
    have hkey : e.1 = (x0, (y : Int)) := by
      rw [← hxx, ← hcond'.1]
    exact nodup_keys_entry_unique hknd hept hx0' (by rw [hkey])
  have hfnd : (pt.filter
      (fun e => decide (e.1.2 = (y : Int) ∧ e.2 = tok))).Nodup :=
    (List.Nodup.of_map Prod.fst hknd).filter _
  have hle := nodup_all_eq_length_le_one hfnd _ hallx
  have hge := List.length_pos_of_mem hmemf
  omega

/-- C10, witness: the aligned one-row diagram `a a`, whose token `a`
occurs twice yet is recorded at the single coordinate (0,0). -/
theorem C10_witness :
    (([((0, 0), ['a'])] : Table).filter
      (fun e => decide (e.1.2 = ((0 : Nat) : Int) ∧ e.2 = ['a']))).length = 1 :=
  C10_duplicate_token_single_coordinate (String.toList "a a") false 0
    (String.toList "a a") ['a'] [((0, 0), ['a'])]
    (by decide) (by decide) (by rfl)
